import Mathlib

/-!
# Verification of the `resistor` solver core

Shallow embedding of `src/resistor/solver.py`.  Exact arithmetic:
the Python code computes over IEEE doubles via numpy; we model the
numbers as rationals (`ℚ`) for the table/scoring layer, and as reals
(`ℝ`) for the E-series decade generator, whose raw values
`10 ** (k/es)` are irrational.

Layer 1 (ℚ): tolerance tables, series/parallel pair tables, scoring
and top-n selection (`find_best_resistor_config`).
Layer 2 (ℝ): `e_decade_table`, the decade generator.
-/

/-- A row `[lo, nominal, hi]` of the base table (`create_table` output). -/
structure Row3 where
  lo : ℚ
  nom : ℚ
  hi : ℚ
deriving DecidableEq, Repr

instance : Inhabited Row3 := ⟨⟨0, 0, 0⟩⟩

/-- A row `[lo, nominal, hi, idx1, idx2]` of a pair table
(`create_series_table` / `create_parallel_table` output). -/
structure Row5 where
  lo : ℚ
  nom : ℚ
  hi : ℚ
  idxA : ℕ
  idxB : ℕ
deriving DecidableEq, Repr

instance : Inhabited Row5 := ⟨⟨0, 0, 0, 0, 0⟩⟩

/-- Tolerance-interval construction of `create_table` (solver.py lines
57-60): each nominal `v` becomes `(v*(1-tolerance), v, v*(1+tolerance))`.
The nominal list itself is the concatenation of `e_decade_table` outputs;
here it is an input, since the decade values are irrational (see Layer 2). -/
def create_table (nominals : List ℚ) (tolerance : ℚ) : List Row3 :=
  nominals.map fun v => ⟨v * (1 - tolerance), v, v * (1 + tolerance)⟩

/-- `np.meshgrid(arange n, arange n, indexing='ij')` followed by `.ravel()`
enumerates all ordered pairs `(i, j)` in row-major order: flat position
`m` holds `i = m / n`, `j = m % n`. -/
def create_series_table (base : List Row3) : List Row5 :=
  let n := base.length
  (List.range (n * n)).map fun m =>
    let i := m / n
    let j := m % n
    let ri := base.getD i default
    let rj := base.getD j default
    ⟨ri.lo + rj.lo, ri.nom + rj.nom, ri.hi + rj.hi, i, j⟩

/-- The harmonic (resistors-in-parallel) combination `(a*b)/(a+b)`. -/
def harm (a b : ℚ) : ℚ := a * b / (a + b)

/-- `create_parallel_table`: same index enumeration as the series table,
with the harmonic formula applied column-wise to the `lo`, `nominal`
and `hi` pairs. -/
def create_parallel_table (base : List Row3) : List Row5 :=
  let n := base.length
  (List.range (n * n)).map fun m =>
    let i := m / n
    let j := m % n
    let ri := base.getD i default
    let rj := base.getD j default
    ⟨harm ri.lo rj.lo, harm ri.nom rj.nom, harm ri.hi rj.hi, i, j⟩

/-- The distance part of `get_score` (solver.py lines 118-127): `dist` is
initialised to zeros and overwritten on the `outside` mask with
`min(|target-lo|, |target-hi|) / nom`; per element that is this
conditional. -/
def distTerm (target lo nom hi : ℚ) : ℚ :=
  if lo ≤ target ∧ target ≤ hi then 0
  else min |target - lo| |target - hi| / nom

/-- `get_score` (solver.py line 128): `dist + 1e-10 * rel_err` with
`rel_err = |target - nom| / nom`.  The float literal `1e-10` is modelled
as the exact rational `1/10^10`. -/
def get_score (target lo nom hi : ℚ) : ℚ :=
  distTerm target lo nom hi + 1 / 10 ^ 10 * (|target - nom| / nom)

/-- Python slice `l[:n]`, including negative-`n` semantics:
`l[:-k]` drops the last `k` elements. -/
def pyTake (n : ℤ) (l : List α) : List α :=
  if 0 ≤ n then l.take n.toNat else l.take ((l.length : ℤ) + n).toNat

/-- Length of `pyTake n` on a list of length `m`. -/
def pyTakeLen (n : ℤ) (m : ℕ) : ℕ :=
  if 0 ≤ n then min n.toNat m else min ((m : ℤ) + n).toNat m

/-- Sort a list ascending by a rational-valued key.  Models both
`np.argsort` over the score vector (the selected rows are traversed in
ascending score order) and `candidates.sort(key=lambda x: x["score"])`.
`np.argsort`'s default kind is unstable among tied keys; the stable
insertion sort here fixes one deterministic tie order, which is the only
freedom numpy leaves. -/
def sortByKey (key : α → ℚ) (l : List α) : List α :=
  l.insertionSort fun a b => key a ≤ key b

/-- Configuration kind of a result. -/
inductive Config where
  | single
  | series
  | parallel
deriving DecidableEq, Repr

/-- Round half to even (banker's rounding), the behaviour of `np.round`
and Python's `round`. -/
def roundEven (q : ℚ) : ℤ :=
  if Int.fract q < 1 / 2 then ⌊q⌋
  else if 1 / 2 < Int.fract q then ⌊q⌋ + 1
  else if Even ⌊q⌋ then ⌊q⌋ else ⌊q⌋ + 1

/-- `round(x, 4)`: round to four decimal places. -/
def round4 (q : ℚ) : ℚ := (roundEven (q * 10 ^ 4) : ℚ) / 10 ^ 4

/-- The caller-visible result dict. -/
structure MatchResult where
  config : Config
  resistors : List ℚ
  nominal : ℚ
  lo : ℚ
  hi : ℚ
  score : ℚ
  lower_tol_pct : ℚ
  upper_tol_pct : ℚ
deriving DecidableEq, Repr

/-- Assembly of a `"single"` candidate dict (solver.py lines 135-146). -/
def singleResult (target : ℚ) (r : Row3) : MatchResult :=
  { config := .single
    resistors := [r.nom]
    nominal := r.nom
    lo := r.lo
    hi := r.hi
    score := get_score target r.lo r.nom r.hi
    lower_tol_pct := round4 ((r.nom - r.lo) / r.nom * 100)
    upper_tol_pct := round4 ((r.hi - r.nom) / r.nom * 100) }

/-- Assembly of a `"series"` or `"parallel"` candidate dict (solver.py
lines 148-165 and 167-184): the two indices are resolved to base
nominals and reported as an ascending `sorted` pair. -/
def pairResult (cfg : Config) (target : ℚ) (base : List Row3) (r : Row5) : MatchResult :=
  let r1 := (base.getD r.idxA default).nom
  let r2 := (base.getD r.idxB default).nom
  { config := cfg
    resistors := if r1 ≤ r2 then [r1, r2] else [r2, r1]
    nominal := r.nom
    lo := r.lo
    hi := r.hi
    score := get_score target r.lo r.nom r.hi
    lower_tol_pct := round4 ((r.nom - r.lo) / r.nom * 100)
    upper_tol_pct := round4 ((r.hi - r.nom) / r.nom * 100) }

/-- Score of a `Row3` under a target. -/
def rowScore3 (target : ℚ) (r : Row3) : ℚ := get_score target r.lo r.nom r.hi

/-- Score of a `Row5` under a target. -/
def rowScore5 (target : ℚ) (r : Row5) : ℚ := get_score target r.lo r.nom r.hi

/-- The per-category selections of `find_best_resistor_config`: within
each of the three categories, `np.argsort(score)[:n]` selects the `n`
lowest-scoring rows in ascending score order, and a candidate dict is
appended per selected row.  The three blocks are appended in source
order: single, series, parallel. -/
def selections (target : ℚ) (base : List Row3) (series parallel : List Row5)
    (n : ℤ) : List MatchResult :=
  (pyTake n (sortByKey (rowScore3 target) base)).map (singleResult target)
    ++ (pyTake n (sortByKey (rowScore5 target) series)).map (pairResult .series target base)
    ++ (pyTake n (sortByKey (rowScore5 target) parallel)).map (pairResult .parallel target base)

/-- `find_best_resistor_config` (solver.py lines 99-187): build the three
per-category selections, merge, `candidates.sort(key=score)` (a stable
sort), and return `candidates[:n]`. -/
def find_best_resistor_config (target : ℚ) (base : List Row3)
    (series parallel : List Row5) (n : ℤ) : List MatchResult :=
  pyTake n (sortByKey (fun m => m.score) (selections target base series parallel n))

/-!
## Layer 2: the decade generator `e_decade_table` (solver.py lines 15-38)

The raw formula values `10 ** (k/es)` are irrational, so this layer is
modelled over `ℝ`.
-/

/-- The `_IEC_E_VALUES` dictionary (solver.py lines 7-12). -/
def iecList (es : ℕ) : List ℚ :=
  if es = 6 then [1.0, 1.5, 2.2, 3.3, 4.7, 6.8]
  else if es = 12 then [1.0, 1.2, 1.5, 1.8, 2.2, 2.7, 3.3, 3.9, 4.7, 5.6, 6.8, 8.2]
  else if es = 24 then
    [1.0, 1.1, 1.2, 1.3, 1.5, 1.6, 1.8, 2.0, 2.2, 2.4, 2.7, 3.0,
     3.3, 3.6, 3.9, 4.3, 4.7, 5.1, 5.6, 6.2, 6.8, 7.5, 8.2, 9.1]
  else []

/-- Round half to even over `ℝ` (`np.round`'s rounding mode). -/
noncomputable def roundEvenR (x : ℝ) : ℤ :=
  if Int.fract x < 1 / 2 then ⌊x⌋
  else if 1 / 2 < Int.fract x then ⌊x⌋ + 1
  else if Even ⌊x⌋ then ⌊x⌋ else ⌊x⌋ + 1

/-- Significant-figure rounding of the formula regime (solver.py lines
33-36): `order = floor(log10(|v|))`, `scale = 10^(precision-1-order)`,
result `round(v*scale)/scale`. -/
noncomputable def roundSig (p : ℕ) (v : ℝ) : ℝ :=
  let order : ℤ := ⌊Real.logb 10 |v|⌋
  let scale : ℝ := (10 : ℝ) ^ ((p : ℤ) - 1 - order)
  (roundEvenR (v * scale) : ℝ) / scale

/-- `e_decade_table` (solver.py lines 15-38).  If `es` is a key of
`_IEC_E_VALUES` the fixed mantissa list is scaled by `10^(decade-1)`;
otherwise, for each `k < es`, the raw value
`10.0 ** (k/es + (decade-1)) = 10^(k/es) * 10^(decade-1)` is rounded to
`precision` significant figures.  No input validation is performed. -/
noncomputable def e_decade_table (es p decade : ℕ) : List ℝ :=
  if es = 6 ∨ es = 12 ∨ es = 24 then
    (iecList es).map fun v => (v : ℝ) * (10 : ℝ) ^ ((decade : ℤ) - 1)
  else
    (List.range es).map fun k : ℕ =>
      roundSig p ((10 : ℝ) ^ ((k : ℝ) / (es : ℝ)) * (10 : ℝ) ^ ((decade : ℤ) - 1))

/-- Spec-side restatement of the distance term (§4.4): `0` when
`lo ≤ target ≤ hi`, else `min(|target-lo|, |target-hi|) / nominal`. -/
def spec_distanceTerm (target lo nom hi : ℚ) : ℚ :=
  if lo ≤ target ∧ target ≤ hi then 0
  else min |target - lo| |target - hi| / nom

/-- Spec-side restatement of the full score formula (§4.4):
`distanceTerm + 1e-10 * (|target-nominal| / nominal)`. -/
def spec_score (target lo nom hi : ℚ) : ℚ :=
  spec_distanceTerm target lo nom hi + 1 / 10 ^ 10 * (|target - nom| / nom)

/-- A two-row base table used as a concrete input by several
counterexamples and witnesses (nominals 1 and 2 at 1% tolerance). -/
def base2 : List Row3 := [⟨99/100, 1, 101/100⟩, ⟨198/100, 2, 202/100⟩]

/-- The second record of the parallel table over `base2`
(`0.99 ∥ 1.98`, `1 ∥ 2`, `1.01 ∥ 2.02`, back-references `(0, 1)`). -/
def parRec2 : Row5 := (create_parallel_table base2).getD 1 default

/-- Distance term of a `Row3` under a target. -/
def rowDist3 (target : ℚ) (r : Row3) : ℚ := distTerm target r.lo r.nom r.hi

/-- All candidate rows scored by `find_best_resistor_config` when its
three tables are built from the nominal list `nominals` at the given
tolerance: the base table rows plus the `(lo, nominal, hi)` part of
every series and parallel pair record. -/
def candidateRows (nominals : List ℚ) (tolerance : ℚ) : List Row3 :=
  let base := create_table nominals tolerance
  base ++ (create_series_table base).map (fun r => ⟨r.lo, r.nom, r.hi⟩)
    ++ (create_parallel_table base).map (fun r => ⟨r.lo, r.nom, r.hi⟩)

/-!
## Sorting infrastructure lemmas
-/

instance keyLeTotal (key : α → ℚ) : IsTotal α (fun a b => key a ≤ key b) :=
  ⟨fun a b => le_total (key a) (key b)⟩

instance keyLeTrans (key : α → ℚ) : IsTrans α (fun a b => key a ≤ key b) :=
  ⟨fun _ _ _ h1 h2 => le_trans h1 h2⟩

theorem sortByKey_sorted (key : α → ℚ) (l : List α) :
    List.Sorted (fun a b => key a ≤ key b) (sortByKey key l) :=
  List.sorted_insertionSort _ _

theorem sortByKey_perm (key : α → ℚ) (l : List α) :
    List.Perm (sortByKey key l) l :=
  List.perm_insertionSort _ _

theorem pyTake_sublist (n : ℤ) (l : List α) : List.Sublist (pyTake n l) l := by
  unfold pyTake
  split <;> exact List.take_sublist _ _

theorem pyTake_subset (n : ℤ) (l : List α) : pyTake n l ⊆ l :=
  (pyTake_sublist n l).subset

theorem pyTake_length_le (n : ℤ) (l : List α) (hn : 0 ≤ n) :
    ((pyTake n l).length : ℤ) ≤ n := by
  unfold pyTake
  rw [if_pos hn]
  calc ((l.take n.toNat).length : ℤ) ≤ (n.toNat : ℤ) := by
        exact_mod_cast l.length_take_le n.toNat
    _ = n := Int.toNat_of_nonneg hn

/-!
## Claim theorems
-/

/-- C1: for every candidate row `(lo, nominal, hi)` and every target,
the score computed by `get_score` equals the spec's
`distanceTerm + 1e-10 * (|target-nominal|/nominal)`, where the distance
term is `0` inside the tolerance interval and
`min(|target-lo|, |target-hi|)/nominal` outside it. -/
theorem get_score_eq_spec_score (target lo nom hi : ℚ) :
    get_score target lo nom hi = spec_score target lo nom hi := by
  unfold get_score spec_score distTerm spec_distanceTerm
  rfl

theorem sortByKey_length (key : α → ℚ) (l : List α) :
    (sortByKey key l).length = l.length :=
  (sortByKey_perm key l).length_eq

theorem pyTake_length (n : ℤ) (l : List α) :
    (pyTake n l).length = pyTakeLen n l.length := by
  unfold pyTake pyTakeLen
  split <;> simp [List.length_take]

/-- Closed-form length of a `find_best_resistor_config` result, obtained
by pushing lengths through the sorts, takes, maps and appends. -/
theorem find_best_length (target : ℚ) (base : List Row3)
    (series parallel : List Row5) (n : ℤ) :
    (find_best_resistor_config target base series parallel n).length =
      pyTakeLen n (pyTakeLen n base.length + pyTakeLen n series.length +
        pyTakeLen n parallel.length) := by
  unfold find_best_resistor_config
  rw [pyTake_length, sortByKey_length]
  congr 1
  unfold selections
  rw [List.length_append, List.length_append, List.length_map, List.length_map,
    List.length_map, pyTake_length, pyTake_length, pyTake_length,
    sortByKey_length, sortByKey_length, sortByKey_length]

/-- C2: for every target, tables and `n ≥ 1`, the result of
`find_best_resistor_config` is ascending in score, has length at most
`n`, and every returned record comes from the merged per-category
selections (`selections`, which takes the `n` lowest-scoring rows of
each of the three categories in ascending score order). -/
theorem find_best_sorted_bounded_from_selections (target : ℚ) (base : List Row3)
    (series parallel : List Row5) (n : ℤ) (hn : 1 ≤ n) :
    List.Sorted (fun a b : MatchResult => a.score ≤ b.score)
        (find_best_resistor_config target base series parallel n) ∧
      ((find_best_resistor_config target base series parallel n).length : ℤ) ≤ n ∧
      ∀ r ∈ find_best_resistor_config target base series parallel n,
        r ∈ selections target base series parallel n := by
  refine ⟨?_, ?_, ?_⟩
  · have hs := sortByKey_sorted (fun m : MatchResult => m.score)
      (selections target base series parallel n)
    exact hs.sublist (pyTake_sublist n _)
  · exact pyTake_length_le n _ (by linarith)
  · intro r hr
    exact (sortByKey_perm _ _).subset (pyTake_subset n _ hr)

/-- C2 witness: instantiated on `base2`, its pair tables, target `3/2`
and `n = 2`. -/
theorem find_best_sorted_bounded_from_selections_witness :
    List.Sorted (fun a b : MatchResult => a.score ≤ b.score)
        (find_best_resistor_config (3/2) base2 (create_series_table base2)
          (create_parallel_table base2) 2) ∧
      ((find_best_resistor_config (3/2) base2 (create_series_table base2)
          (create_parallel_table base2) 2).length : ℤ) ≤ 2 ∧
      ∀ r ∈ find_best_resistor_config (3/2) base2 (create_series_table base2)
          (create_parallel_table base2) 2,
        r ∈ selections (3/2) base2 (create_series_table base2)
          (create_parallel_table base2) 2 :=
  find_best_sorted_bounded_from_selections (3/2) base2
    (create_series_table base2) (create_parallel_table base2) 2 (by norm_num)

/-- C8 counterexample: with target `-1` (≤ 0), the solver raises nothing
and returns one result — there is no target validation in the code, and
no `InvalidTargetError` exists anywhere in the repository. -/
theorem find_best_accepts_nonpositive_target :
    (find_best_resistor_config (-1) base2 (create_series_table base2)
        (create_parallel_table base2) 1).length = 1 := by
  rw [find_best_length]
  have hb : base2.length = 2 := rfl
  have hs : (create_series_table base2).length = 4 := by
    simp [create_series_table, hb]
  have hp : (create_parallel_table base2).length = 4 := by
    simp [create_parallel_table, hb]
  rw [hb, hs, hp]
  decide

/-- C8 (amended): `find_best_resistor_config` performs no validation of
the target; for every target (in particular `target ≤ 0`) and `n ≥ 0` it
returns the merged top-n selection of length
`min(n, min(n,B) + min(n,S) + min(n,P))` instead of failing. -/
theorem find_best_no_target_validation (target : ℚ) (base : List Row3)
    (series parallel : List Row5) (n : ℤ) (_ht : target ≤ 0) (hn : 0 ≤ n) :
    (find_best_resistor_config target base series parallel n).length =
      min n.toNat (min n.toNat base.length + min n.toNat series.length +
        min n.toNat parallel.length) := by
  rw [find_best_length]
  unfold pyTakeLen
  rw [if_pos hn, if_pos hn, if_pos hn, if_pos hn]

/-- C8 amended-claim witness: target `-1`, `n = 1`. -/
theorem find_best_no_target_validation_witness :
    (find_best_resistor_config (-1) base2 (create_series_table base2)
        (create_parallel_table base2) 1).length =
      min (1 : ℤ).toNat (min (1 : ℤ).toNat base2.length +
        min (1 : ℤ).toNat (create_series_table base2).length +
        min (1 : ℤ).toNat (create_parallel_table base2).length) :=
  find_best_no_target_validation (-1) base2 (create_series_table base2)
    (create_parallel_table base2) 1 (by norm_num) (by norm_num)

/-- C9 counterexample: with `n = -1 ≤ 0`, Python's negative-slice
semantics (`l[:-1]` drops one element) make the solver return a
non-empty result, contradicting the claim that every `n ≤ 0` yields an
empty sequence. -/
theorem find_best_negative_n_not_empty :
    find_best_resistor_config (3/2) base2 (create_series_table base2)
        (create_parallel_table base2) (-1) ≠ [] := by
  intro h
  have hlen := congrArg List.length h
  rw [find_best_length] at hlen
  have hb : base2.length = 2 := rfl
  have hs : (create_series_table base2).length = 4 := by
    simp [create_series_table, hb]
  have hp : (create_parallel_table base2).length = 4 := by
    simp [create_parallel_table, hb]
  rw [hb, hs, hp] at hlen
  exact absurd hlen (by decide)

/-- C9 (amended): `n = 0` yields an empty result sequence without error
(`[:0]` is the empty slice); for negative `n` Python's negative-slice
semantics apply instead, and the result is in general non-empty. -/
theorem find_best_n_zero_returns_empty (target : ℚ) (base : List Row3)
    (series parallel : List Row5) :
    find_best_resistor_config target base series parallel 0 = [] := by
  simp [find_best_resistor_config, pyTake]

/-- C3 counterexample: on a base table of size `N = 2`,
`create_series_table` produces `4 = N*N` records, not
`N(N+1)/2 = 3`, and its third record pairs the indices `(1, 0)`
with `idxA > idxB`, so the enumeration is not restricted to `i ≤ j`. -/
theorem create_series_table_not_half_matrix :
    (create_series_table base2).length ≠ 2 * (2 + 1) / 2 ∧
      ((create_series_table base2).getD 2 default).idxA = 1 ∧
      ((create_series_table base2).getD 2 default).idxB = 0 := by
  refine ⟨?_, ?_, ?_⟩ <;> decide

/-- C3 (amended): for every base table of size `N`,
`create_series_table` enumerates exactly the ordered index pairs
`(i, j) ∈ [0,N) × [0,N)` in row-major order, producing `N*N`
PairRecords; the record at flat position `i*N + j` has
`lo = lo_i + lo_j`, `nominal = nominal_i + nominal_j`,
`hi = hi_i + hi_j` and back-references `(i, j)`. -/
theorem create_series_table_enumerates_ordered_pairs (base : List Row3) (i j : ℕ)
    (hiN : i < base.length) (hjN : j < base.length) :
    (create_series_table base).length = base.length * base.length ∧
      (create_series_table base).getD (i * base.length + j) default =
        ⟨(base.getD i default).lo + (base.getD j default).lo,
         (base.getD i default).nom + (base.getD j default).nom,
         (base.getD i default).hi + (base.getD j default).hi, i, j⟩ := by
  have hlen : (create_series_table base).length = base.length * base.length := by
    simp [create_series_table]
  refine ⟨hlen, ?_⟩
  have hm : i * base.length + j < base.length * base.length := by
    calc i * base.length + j < i * base.length + base.length := by omega
      _ = (i + 1) * base.length := by ring
      _ ≤ base.length * base.length := Nat.mul_le_mul_right _ hiN
  have hN : 0 < base.length := by omega
  have hdiv : (i * base.length + j) / base.length = i := by
    rw [Nat.mul_comm i base.length, Nat.mul_add_div hN, Nat.div_eq_of_lt hjN,
      Nat.add_zero]
  have hmod : (i * base.length + j) % base.length = j := by
    rw [Nat.mul_comm i base.length, Nat.mul_add_mod, Nat.mod_eq_of_lt hjN]
  rw [List.getD_eq_getElem _ _ (by simpa [create_series_table] using hm)]
  simp only [create_series_table, List.getElem_map, List.getElem_range, hdiv, hmod]

/-- C3 amended-claim witness: the ordered pair `(1, 0)` of `base2`. -/
theorem create_series_table_enumerates_ordered_pairs_witness :
    (create_series_table base2).length = base2.length * base2.length ∧
      (create_series_table base2).getD (1 * base2.length + 0) default =
        ⟨(base2.getD 1 default).lo + (base2.getD 0 default).lo,
         (base2.getD 1 default).nom + (base2.getD 0 default).nom,
         (base2.getD 1 default).hi + (base2.getD 0 default).hi, 1, 0⟩ :=
  create_series_table_enumerates_ordered_pairs base2 1 0 (by decide) (by decide)

/-- C10: for a series density in `{6, 12, 24}`, the output of
`e_decade_table` does not depend on the precision argument: the IEC
exact-override branch never reads it. -/
theorem e_decade_table_precision_independent (es : ℕ)
    (h : es = 6 ∨ es = 12 ∨ es = 24) (p1 p2 decade : ℕ) :
    e_decade_table es p1 decade = e_decade_table es p2 decade := by
  unfold e_decade_table
  rw [if_pos h, if_pos h]

/-- C10 witness: E6 at precisions 1 and 7 agree on decade 1. -/
theorem e_decade_table_precision_independent_witness :
    e_decade_table 6 1 1 = e_decade_table 6 7 1 :=
  e_decade_table_precision_independent 6 (Or.inl rfl) 1 7 1

/-- C7 counterexample: at series density `5` (outside the supported
set), `e_decade_table` does not fail — it returns a value sequence of
length `5` via the formula regime. -/
theorem e_decade_table_es5_returns_values :
    (e_decade_table 5 3 1).length = 5 := by
  unfold e_decade_table
  rw [if_neg (by decide), List.length_map, List.length_range]

/-- C7 (amended): `e_decade_table` performs no series-density
validation; for every density outside the IEC override keys
`{6, 12, 24}` it falls through to the formula regime and returns a
rounded value sequence of length `es` — no `InvalidSeriesError` exists
in the code. -/
theorem e_decade_table_no_series_validation (es p decade : ℕ)
    (h : ¬(es = 6 ∨ es = 12 ∨ es = 24)) :
    (e_decade_table es p decade).length = es := by
  unfold e_decade_table
  rw [if_neg h, List.length_map, List.length_range]

/-- C7 amended-claim witness: density 7 yields 7 values. -/
theorem e_decade_table_no_series_validation_witness :
    (e_decade_table 7 3 1).length = 7 :=
  e_decade_table_no_series_validation 7 3 1 (by decide)

/-- Multiplying the input of the significant-figure rounding by `10`
shifts its order of magnitude by one and multiplies the output by
exactly `10`. -/
theorem roundSig_ten_mul (p : ℕ) (v : ℝ) (hv : v ≠ 0) :
    roundSig p (v * 10) = roundSig p v * 10 := by
  have h10 : (10 : ℝ) ≠ 0 := by norm_num
  have habs : |v * 10| = |v| * 10 := by
    rw [abs_mul]
    norm_num
  have hlog : Real.logb 10 |v * 10| = Real.logb 10 |v| + 1 := by
    rw [habs, Real.logb_mul (abs_ne_zero.2 hv) h10,
      Real.logb_self_eq_one (by norm_num)]
  have hfloor : ⌊Real.logb 10 |v * 10|⌋ = ⌊Real.logb 10 |v|⌋ + 1 := by
    rw [hlog, Int.floor_add_one]
  unfold roundSig
  rw [hfloor]
  set o : ℤ := ⌊Real.logb 10 |v|⌋ with ho
  have hscale : ((10 : ℝ) ^ ((p : ℤ) - 1 - o) : ℝ) =
      (10 : ℝ) ^ ((p : ℤ) - 1 - (o + 1)) * 10 := by
    rw [← zpow_add_one₀ h10]
    congr 1
    ring
  have harg : v * 10 * (10 : ℝ) ^ ((p : ℤ) - 1 - (o + 1)) =
      v * (10 : ℝ) ^ ((p : ℤ) - 1 - o) := by
    rw [hscale]
    ring
  show (roundEvenR (v * 10 * (10 : ℝ) ^ ((p : ℤ) - 1 - (o + 1))) : ℝ) /
      (10 : ℝ) ^ ((p : ℤ) - 1 - (o + 1)) =
    (roundEvenR (v * (10 : ℝ) ^ ((p : ℤ) - 1 - o)) : ℝ) /
      (10 : ℝ) ^ ((p : ℤ) - 1 - o) * 10
  rw [harg, hscale]
  have hs : ((10 : ℝ) ^ ((p : ℤ) - 1 - (o + 1)) : ℝ) ≠ 0 := zpow_ne_zero _ h10
  field_simp
  ring

/-- C5: for every supported series density, precision `≥ 1` and decade
index `k ≥ 1`, `e_decade_table es p (k+1)` equals
`e_decade_table es p k` with every element multiplied by exactly `10`:
the IEC branch scales the fixed mantissas by `10^(decade-1)`, and in the
formula branch the significant-figure rounding commutes with the decade
shift (`roundSig_ten_mul`). -/
theorem e_decade_table_decade_scaling (es p k : ℕ)
    (_hes : es ∈ ([6, 12, 24, 48, 96, 192] : List ℕ)) (_hp : 1 ≤ p) (_hk : 1 ≤ k) :
    e_decade_table es p (k + 1) = (e_decade_table es p k).map (· * 10) := by
  by_cases hiec : es = 6 ∨ es = 12 ∨ es = 24
  · unfold e_decade_table
    rw [if_pos hiec, if_pos hiec, List.map_map]
    apply List.map_congr_left
    intro v _
    show (v : ℝ) * (10 : ℝ) ^ ((((k + 1 : ℕ)) : ℤ) - 1) =
      (v : ℝ) * (10 : ℝ) ^ ((k : ℤ) - 1) * 10
    have hcast : (((k + 1 : ℕ)) : ℤ) - 1 = ((k : ℤ) - 1) + 1 := by
      push_cast
      ring
    rw [hcast, zpow_add_one₀ (by norm_num : (10 : ℝ) ≠ 0)]
    ring
  · unfold e_decade_table
    rw [if_neg hiec, if_neg hiec, List.map_map]
    apply List.map_congr_left
    intro m _
    show roundSig p ((10 : ℝ) ^ ((m : ℝ) / (es : ℝ)) * (10 : ℝ) ^ ((((k + 1 : ℕ)) : ℤ) - 1)) =
      roundSig p ((10 : ℝ) ^ ((m : ℝ) / (es : ℝ)) * (10 : ℝ) ^ ((k : ℤ) - 1)) * 10
    have hcast : (((k + 1 : ℕ)) : ℤ) - 1 = ((k : ℤ) - 1) + 1 := by
      push_cast
      ring
    have hsplit : (10 : ℝ) ^ ((m : ℝ) / (es : ℝ)) * (10 : ℝ) ^ ((((k + 1 : ℕ)) : ℤ) - 1) =
        (10 : ℝ) ^ ((m : ℝ) / (es : ℝ)) * (10 : ℝ) ^ ((k : ℤ) - 1) * 10 := by
      rw [hcast, zpow_add_one₀ (by norm_num : (10 : ℝ) ≠ 0)]
      ring
    rw [hsplit, roundSig_ten_mul]
    have hpos : (0 : ℝ) < (10 : ℝ) ^ ((m : ℝ) / (es : ℝ)) * (10 : ℝ) ^ ((k : ℤ) - 1) := by
      positivity
    exact ne_of_gt hpos

/-- C5 witness: E96 decade 2 is E96 decade 1 scaled by 10. -/
theorem e_decade_table_decade_scaling_witness :
    e_decade_table 96 3 2 = (e_decade_table 96 3 1).map (· * 10) :=
  e_decade_table_decade_scaling 96 3 1 (by decide) (by decide) (by decide)

theorem harm_mul_left (c a b : ℚ) : harm (c * a) (c * b) = c * harm a b := by
  unfold harm
  rcases eq_or_ne c 0 with rfl | hc
  · simp
  rcases eq_or_ne (a + b) 0 with hab | hab
  · have hz : c * a + c * b = 0 := by
      rw [← mul_add, hab, mul_zero]
    rw [hz, hab]
    simp
  · have hz : c * a + c * b = c * (a + b) := by ring
    rw [hz]
    field_simp
    ring

theorem harm_pos (a b : ℚ) (ha : 0 < a) (hb : 0 < b) : 0 < harm a b := by
  unfold harm
  exact div_pos (mul_pos ha hb) (add_pos ha hb)

/-- Element of `create_table` at a valid index. -/
theorem create_table_getD (nominals : List ℚ) (tol : ℚ) (i : ℕ)
    (h : i < nominals.length) :
    (create_table nominals tol).getD i default =
      ⟨nominals.getD i 0 * (1 - tol), nominals.getD i 0,
       nominals.getD i 0 * (1 + tol)⟩ := by
  have hlen : i < (create_table nominals tol).length := by
    simpa [create_table] using h
  rw [List.getD_eq_getElem _ _ hlen, List.getD_eq_getElem _ _ h]
  simp [create_table]

theorem getD_mem_of_lt (l : List ℚ) (i : ℕ) (h : i < l.length) :
    l.getD i 0 ∈ l := by
  rw [List.getD_eq_getElem _ _ h]
  exact List.getElem_mem _

/-- Every candidate row scored by the solver has the constant-relative-
tolerance form `(nom*(1-tol), nom, nom*(1+tol))` with a positive
nominal: base rows carry it by construction, series rows because sums
distribute over the scaling, and parallel rows because the harmonic
combination is homogeneous. -/
theorem candidateRows_shape (nominals : List ℚ) (tol : ℚ)
    (hpos : ∀ v ∈ nominals, 0 < v) (r : Row3)
    (hr : r ∈ candidateRows nominals tol) :
    ∃ nom : ℚ, 0 < nom ∧ r = ⟨nom * (1 - tol), nom, nom * (1 + tol)⟩ := by
  have hNeq : (create_table nominals tol).length = nominals.length := by
    simp [create_table]
  unfold candidateRows at hr
  rcases List.mem_append.1 hr with hbs | hp
  case inl =>
    rcases List.mem_append.1 hbs with hb | hs
    · simp only [create_table, List.mem_map] at hb
      obtain ⟨v, hv, rfl⟩ := hb
      exact ⟨v, hpos v hv, rfl⟩
    · simp only [List.mem_map] at hs
      obtain ⟨r5, hr5, rfl⟩ := hs
      simp only [create_series_table, List.mem_map, List.mem_range] at hr5
      obtain ⟨m, hm, rfl⟩ := hr5
      rw [hNeq] at hm
      have hN : 0 < nominals.length := by
        rcases Nat.eq_zero_or_pos nominals.length with h0 | h
        · rw [h0] at hm; omega
        · exact h
      have hiN : m / nominals.length < nominals.length := Nat.div_lt_of_lt_mul (by
        simpa [hNeq] using hm)
      have hjN : m % nominals.length < nominals.length := Nat.mod_lt m hN
      rw [hNeq, create_table_getD _ _ _ hiN, create_table_getD _ _ _ hjN]
      set vi := nominals.getD (m / nominals.length) 0 with hvi
      set vj := nominals.getD (m % nominals.length) 0 with hvj
      have hvi0 : 0 < vi := hpos _ (getD_mem_of_lt _ _ hiN)
      have hvj0 : 0 < vj := hpos _ (getD_mem_of_lt _ _ hjN)
      refine ⟨vi + vj, by linarith, ?_⟩
      show (⟨vi * (1 - tol) + vj * (1 - tol), vi + vj,
        vi * (1 + tol) + vj * (1 + tol)⟩ : Row3) = _
      congr 1 <;> ring
  case inr =>
    simp only [List.mem_map] at hp
    obtain ⟨r5, hr5, rfl⟩ := hp
    simp only [create_parallel_table, List.mem_map, List.mem_range] at hr5
    obtain ⟨m, hm, rfl⟩ := hr5
    rw [hNeq] at hm
    have hN : 0 < nominals.length := by
      rcases Nat.eq_zero_or_pos nominals.length with h0 | h
      · rw [h0] at hm; omega
      · exact h
    have hiN : m / nominals.length < nominals.length := Nat.div_lt_of_lt_mul (by
      simpa [hNeq] using hm)
    have hjN : m % nominals.length < nominals.length := Nat.mod_lt m hN
    rw [hNeq, create_table_getD _ _ _ hiN, create_table_getD _ _ _ hjN]
    set vi := nominals.getD (m / nominals.length) 0 with hvi
    set vj := nominals.getD (m % nominals.length) 0 with hvj
    have hvi0 : 0 < vi := hpos _ (getD_mem_of_lt _ _ hiN)
    have hvj0 : 0 < vj := hpos _ (getD_mem_of_lt _ _ hjN)
    refine ⟨harm vi vj, harm_pos vi vj hvi0 hvj0, ?_⟩
    show (⟨harm (vi * (1 - tol)) (vj * (1 - tol)), harm vi vj,
      harm (vi * (1 + tol)) (vj * (1 + tol))⟩ : Row3) = _
    have hlo : harm (vi * (1 - tol)) (vj * (1 - tol)) = harm vi vj * (1 - tol) := by
      rw [mul_comm vi (1 - tol), mul_comm vj (1 - tol), harm_mul_left]
      ring
    have hhi : harm (vi * (1 + tol)) (vj * (1 + tol)) = harm vi vj * (1 + tol) := by
      rw [mul_comm vi (1 + tol), mul_comm vj (1 + tol), harm_mul_left]
      ring
    rw [hlo, hhi]

theorem distTerm_nonneg (target lo nom hi : ℚ) (hn : 0 < nom) :
    0 ≤ distTerm target lo nom hi := by
  unfold distTerm
  split
  · exact le_refl 0
  · exact div_nonneg (le_min (abs_nonneg _) (abs_nonneg _)) hn.le

/-- Inside the tolerance interval, the relative nominal error is at most
the tolerance. -/
theorem relErr_le_of_inside (target nom tol : ℚ) (hn : 0 < nom)
    (hin : nom * (1 - tol) ≤ target ∧ target ≤ nom * (1 + tol)) :
    |target - nom| / nom ≤ tol := by
  rw [div_le_iff₀ hn]
  rw [abs_le]
  constructor <;> nlinarith [hin.1, hin.2]

/-- Outside the tolerance interval, the relative nominal error equals the
distance term plus the tolerance. -/
theorem relErr_eq_of_outside (target nom tol : ℚ) (hn : 0 < nom) (h0 : 0 < tol)
    (hout : ¬(nom * (1 - tol) ≤ target ∧ target ≤ nom * (1 + tol))) :
    |target - nom| / nom =
      distTerm target (nom * (1 - tol)) nom (nom * (1 + tol)) + tol := by
  unfold distTerm
  rw [if_neg hout]
  rcases not_and_or.1 hout with hA | hB
  · have hlo : target < nom * (1 - tol) := lt_of_not_le hA
    have hlohi : nom * (1 - tol) < nom * (1 + tol) := by nlinarith
    have h1 : |target - nom * (1 - tol)| = nom * (1 - tol) - target := by
      rw [abs_of_neg (by linarith)]
      ring
    have h2 : |target - nom * (1 + tol)| = nom * (1 + tol) - target := by
      rw [abs_of_neg (by linarith)]
      ring
    have htn : target < nom := by nlinarith
    have h3 : |target - nom| = nom - target := by
      rw [abs_of_neg (by linarith)]
      ring
    rw [h1, h2, h3, min_eq_left (by linarith)]
    field_simp
    ring
  · have hhi : nom * (1 + tol) < target := lt_of_not_le hB
    have hlohi : nom * (1 - tol) < nom * (1 + tol) := by nlinarith
    have h1 : |target - nom * (1 - tol)| = target - nom * (1 - tol) := by
      rw [abs_of_pos (by linarith)]
    have h2 : |target - nom * (1 + tol)| = target - nom * (1 + tol) := by
      rw [abs_of_pos (by linarith)]
    have htn : nom < target := by nlinarith
    have h3 : |target - nom| = target - nom := by
      rw [abs_of_pos (by linarith)]
    rw [h1, h2, h3, min_eq_right (by linarith)]
    field_simp
    ring

/-- Core of C6: on constant-relative-tolerance rows, a strictly smaller
distance term forces a strictly smaller full score — the `1e-10`
tie-break term can never overcome it. -/
theorem score_lt_of_distTerm_lt (target nomA nomB tol : ℚ)
    (hA : 0 < nomA) (hB : 0 < nomB) (h0 : 0 < tol) (_h1 : tol < 1)
    (hd : distTerm target (nomA * (1 - tol)) nomA (nomA * (1 + tol)) <
      distTerm target (nomB * (1 - tol)) nomB (nomB * (1 + tol))) :
    get_score target (nomA * (1 - tol)) nomA (nomA * (1 + tol)) <
      get_score target (nomB * (1 - tol)) nomB (nomB * (1 + tol)) := by
  set dA := distTerm target (nomA * (1 - tol)) nomA (nomA * (1 + tol)) with hdA
  set dB := distTerm target (nomB * (1 - tol)) nomB (nomB * (1 + tol)) with hdB
  have hdA0 : 0 ≤ dA := distTerm_nonneg _ _ _ _ hA
  have hdB0 : 0 < dB := lt_of_le_of_lt hdA0 hd
  have hBout : ¬(nomB * (1 - tol) ≤ target ∧ target ≤ nomB * (1 + tol)) := by
    intro hin
    have hz : dB = 0 := by
      rw [hdB]
      unfold distTerm
      rw [if_pos hin]
    linarith
  have hrelB : |target - nomB| / nomB = dB + tol :=
    relErr_eq_of_outside target nomB tol hB h0 hBout
  have hrelA : |target - nomA| / nomA ≤ dA + tol := by
    by_cases hin : nomA * (1 - tol) ≤ target ∧ target ≤ nomA * (1 + tol)
    · have hz : dA = 0 := by
        rw [hdA]
        unfold distTerm
        rw [if_pos hin]
      have := relErr_le_of_inside target nomA tol hA hin
      linarith
    · rw [relErr_eq_of_outside target nomA tol hA h0 hin]
  unfold get_score
  rw [← hdA, ← hdB, hrelB]
  have hmulA : 1 / 10 ^ 10 * (|target - nomA| / nomA) ≤
      1 / 10 ^ 10 * (dA + tol) := by
    apply mul_le_mul_of_nonneg_left hrelA
    norm_num
  linarith

/-- C6: for every target and every two candidate rows `a` and `b` of the
tables built from positive nominals at a tolerance in `(0,1)`, if the
distance term of `a` is strictly below that of `b` then the full score of
`a` (tie-break term included) is strictly below that of `b`: the `1e-10`
tie-break never flips an ordering established by the distance term. -/
theorem tiebreak_never_flips_order (nominals : List ℚ) (tolerance target : ℚ)
    (hpos : ∀ v ∈ nominals, 0 < v) (h0 : 0 < tolerance) (h1 : tolerance < 1)
    (a b : Row3) (ha : a ∈ candidateRows nominals tolerance)
    (hb : b ∈ candidateRows nominals tolerance)
    (hd : rowDist3 target a < rowDist3 target b) :
    rowScore3 target a < rowScore3 target b := by
  obtain ⟨nA, hnA, rfl⟩ := candidateRows_shape nominals tolerance hpos a ha
  obtain ⟨nB, hnB, rfl⟩ := candidateRows_shape nominals tolerance hpos b hb
  exact score_lt_of_distTerm_lt target nA nB tolerance hnA hnB h0 h1 hd

/-- C6 witness: target 1 against the 1-ohm row (distance 0) and the
2-ohm row (distance 0.49) of the `[1, 2]` table at 1% tolerance. -/
theorem tiebreak_never_flips_order_witness :
    rowScore3 1 ⟨1 * (1 - 1/100), 1, 1 * (1 + 1/100)⟩ <
      rowScore3 1 ⟨2 * (1 - 1/100), 2, 2 * (1 + 1/100)⟩ :=
  tiebreak_never_flips_order [1, 2] (1/100) 1
    (by
      intro v hv
      simp only [List.mem_cons, List.not_mem_nil, or_false] at hv
      rcases hv with rfl | rfl <;> norm_num)
    (by norm_num) (by norm_num)
    ⟨1 * (1 - 1/100), 1, 1 * (1 + 1/100)⟩ ⟨2 * (1 - 1/100), 2, 2 * (1 + 1/100)⟩
    (by
      apply List.mem_append_left
      apply List.mem_append_left
      simp [create_table])
    (by
      apply List.mem_append_left
      apply List.mem_append_left
      simp [create_table])
    (by
      unfold rowDist3 distTerm
      rw [if_pos (by norm_num), if_neg (by norm_num)]
      rw [abs_of_nonpos (by norm_num), abs_of_nonpos (by norm_num)]
      norm_num)

theorem harm_comm (a b : ℚ) : harm a b = harm b a := by
  unfold harm
  rw [mul_comm, add_comm]

theorem harm_lt_left (a b : ℚ) (ha : 0 < a) (hb : 0 < b) : harm a b < a := by
  unfold harm
  rw [div_lt_iff₀ (by linarith)]
  nlinarith

theorem harm_lt_right (a b : ℚ) (ha : 0 < a) (hb : 0 < b) : harm a b < b := by
  rw [harm_comm]
  exact harm_lt_left b a hb ha

theorem harm_self (a : ℚ) (ha : a ≠ 0) : harm a a = a / 2 := by
  unfold harm
  rw [div_eq_div_iff (by simpa [two_mul] using fun h => ha (by linarith [h])) two_ne_zero]
  ring

/-- C4: every record of the parallel table built from a base table with
positive nominals has `nominal < min(baseNominal[idxA], baseNominal[idxB])`
when the two source nominals differ, `nominal = baseNominal[idxA]/2` when
they coincide, and its `lo`/`hi` are the harmonic combination of the two
`lo` values, respectively the two `hi` values. -/
theorem create_parallel_table_invariant (base : List Row3)
    (hpos : ∀ r ∈ base, 0 < r.nom) (r : Row5)
    (hr : r ∈ create_parallel_table base) :
    ((base.getD r.idxA default).nom ≠ (base.getD r.idxB default).nom →
        r.nom < min (base.getD r.idxA default).nom (base.getD r.idxB default).nom) ∧
      ((base.getD r.idxA default).nom = (base.getD r.idxB default).nom →
        r.nom = (base.getD r.idxA default).nom / 2) ∧
      r.lo = harm (base.getD r.idxA default).lo (base.getD r.idxB default).lo ∧
      r.hi = harm (base.getD r.idxA default).hi (base.getD r.idxB default).hi := by
  simp only [create_parallel_table, List.mem_map, List.mem_range] at hr
  obtain ⟨m, hm, rfl⟩ := hr
  have hN : 0 < base.length := by
    rcases Nat.eq_zero_or_pos base.length with h0 | h
    · rw [h0] at hm; omega
    · exact h
  have hiN : m / base.length < base.length := Nat.div_lt_of_lt_mul hm
  have hjN : m % base.length < base.length := Nat.mod_lt m hN
  set ra := base.getD (m / base.length) default with hra
  set rb := base.getD (m % base.length) default with hrb
  have hmemA : ra ∈ base := by
    rw [hra, List.getD_eq_getElem _ _ hiN]
    exact List.getElem_mem _
  have hmemB : rb ∈ base := by
    rw [hrb, List.getD_eq_getElem _ _ hjN]
    exact List.getElem_mem _
  have hA : 0 < ra.nom := hpos _ hmemA
  have hB : 0 < rb.nom := hpos _ hmemB
  refine ⟨fun _ => ?_, fun he => ?_, rfl, rfl⟩
  · exact lt_min (harm_lt_left _ _ hA hB) (harm_lt_right _ _ hA hB)
  · show harm ra.nom rb.nom = ra.nom / 2
    rw [← he]
    exact harm_self ra.nom (ne_of_gt hA)

/-- C4 witness: the invariant instantiated on a concrete record. -/
theorem create_parallel_table_invariant_witness :
    ((base2.getD parRec2.idxA default).nom ≠ (base2.getD parRec2.idxB default).nom →
        parRec2.nom < min (base2.getD parRec2.idxA default).nom
          (base2.getD parRec2.idxB default).nom) ∧
      ((base2.getD parRec2.idxA default).nom = (base2.getD parRec2.idxB default).nom →
        parRec2.nom = (base2.getD parRec2.idxA default).nom / 2) ∧
      parRec2.lo = harm (base2.getD parRec2.idxA default).lo
        (base2.getD parRec2.idxB default).lo ∧
      parRec2.hi = harm (base2.getD parRec2.idxA default).hi
        (base2.getD parRec2.idxB default).hi :=
  create_parallel_table_invariant base2
    (by
      intro r hr
      simp only [base2, List.mem_cons, List.not_mem_nil, or_false] at hr
      rcases hr with rfl | rfl <;> norm_num)
    parRec2
    (by
      have h1 : 1 < (create_parallel_table base2).length := by
        simp [create_parallel_table, base2]
      rw [parRec2, List.getD_eq_getElem _ _ h1]
      exact List.getElem_mem _)
